import Mathlib

/-!
Verification of the game-grove catalog application (src/src/App.tsx) against its
natural-language specification.  The TypeScript front end is shallowly embedded:
pure string processing becomes Lean functions on `List Char`, the React state
machines (catalog loading, settings persistence, update flow, folder creation)
become explicit state types with labelled transition relations, and the Rust
backend commands that are not part of the sources are modelled from the spec
where a claim needs them.
-/

namespace GameGrove

/-! ### Character classes

JavaScript semantics for the characters the sanitizer cares about.
`jsWhitespace` is the ECMAScript WhiteSpace ∪ LineTerminator set, which is both
what `String.prototype.trim` removes and what the regex class `\s` matches.
`jsLowerChar` is `String.prototype.toLowerCase` restricted to ASCII; non-ASCII
case mappings are left as the identity, which is sound for every claim below
because any character outside `[a-z0-9\s-]` is removed by the sanitizer's
filter step regardless. -/

def jsWhitespace (c : Char) : Bool :=
  c.toNat == 9 || c.toNat == 10 || c.toNat == 11 || c.toNat == 12 ||
  c.toNat == 13 || c.toNat == 32 || c.toNat == 0xa0 || c.toNat == 0x1680 ||
  (0x2000 ≤ c.toNat && c.toNat ≤ 0x200a) || c.toNat == 0x2028 ||
  c.toNat == 0x2029 || c.toNat == 0x202f || c.toNat == 0x205f ||
  c.toNat == 0x3000 || c.toNat == 0xfeff

def isLowerAlpha (c : Char) : Bool :=
  97 ≤ c.toNat && c.toNat ≤ 122

def isDigitChar (c : Char) : Bool :=
  48 ≤ c.toNat && c.toNat ≤ 57

def jsLowerChar (c : Char) : Char :=
  if 65 ≤ c.toNat && c.toNat ≤ 90 then Char.ofNat (c.toNat + 32) else c

/-- The character class kept by the regex `[^a-z0-9\s-]` replacement in
`formatGameNameForFilesystem`: lowercase ASCII letters, digits, any
JavaScript whitespace, and the hyphen. -/
def keptChar (c : Char) : Bool :=
  isLowerAlpha c || isDigitChar c || jsWhitespace c || c == '-'

/-- Characters that may appear in a sanitized name: lowercase ASCII letters,
digits, and the hyphen. -/
def goodChar (c : Char) : Bool :=
  isLowerAlpha c || isDigitChar c || c == '-'

/-! ### List-level string operations -/

/-- Remove the trailing run of characters satisfying `p`: keep a character if
something after it is kept; at the end of the list drop the characters
satisfying `p`. -/
def dropTrailingWhile (p : Char → Bool) : List Char → List Char
  | [] => []
  | c :: cs =>
    match dropTrailingWhile p cs with
    | [] => if p c then [] else [c]
    | d :: ds => c :: d :: ds

/-- Model of `String.prototype.trim` on a character list: strip leading and trailing
JavaScript whitespace. -/
def jsTrimList (l : List Char) : List Char :=
  dropTrailingWhile jsWhitespace (l.dropWhile jsWhitespace)

/-- Replace every maximal run of characters satisfying `p` by the single
character `rep`; this is `.replace(/p+/g, rep)` for a one-character class.
The flag records whether we are inside a run whose replacement was already
emitted. -/
def collapseRuns (p : Char → Bool) (rep : Char) : List Char → Bool → List Char
  | [], _ => []
  | c :: cs, inRun =>
    if p c then
      if inRun then collapseRuns p rep cs true
      else rep :: collapseRuns p rep cs true
    else c :: collapseRuns p rep cs false

/-- The global replace of each whitespace run by a single hyphen. -/
def collapseWsList (l : List Char) : List Char :=
  collapseRuns jsWhitespace '-' l false

/-- The global replace of each hyphen run by a single hyphen. -/
def collapseHyphensList (l : List Char) : List Char :=
  collapseRuns (fun c => c == '-') '-' l false

/-- The global replace deleting the leading and the trailing run of
hyphens. -/
def trimHyphensList (l : List Char) : List Char :=
  dropTrailingWhile (fun c => c == '-') (l.dropWhile (fun c => c == '-'))

/-! ### The sanitizer, from the source

`formatGameNameForFilesystem` in App.tsx chains six string operations:
`toLowerCase()`, `trim()`, a global replace deleting every character outside
the class [a-z, 0-9, backslash-s, hyphen], a global replace of each
whitespace run by one hyphen, a global replace of each hyphen run by one
hyphen, and a global replace deleting the leading and trailing hyphen runs. -/

def formatGameNameForFilesystem (name : String) : String :=
  ⟨trimHyphensList (collapseHyphensList (collapseWsList
    (List.filter keptChar (jsTrimList (name.data.map jsLowerChar)))))⟩

/-- The spec's five-step algorithm, taken literally: step 2 keeps only
characters in [a–z, 0–9, **space**, hyphen] (the space character, not the
whole whitespace class), step 3 collapses each run of whitespace to a single
hyphen. -/
def specSanitize (name : String) : String :=
  ⟨trimHyphensList (collapseHyphensList (collapseWsList
    (List.filter (fun c => isLowerAlpha c || isDigitChar c || c == ' ' || c == '-')
      (jsTrimList (name.data.map jsLowerChar)))))⟩

/-- The spec's five-step algorithm with step 2 amended to keep every
whitespace character (as the code's regex class `\s` does), not only the
space character. -/
def specSanitizeAmended (name : String) : String :=
  ⟨trimHyphensList (collapseHyphensList (collapseWsList
    (List.filter (fun c => isLowerAlpha c || isDigitChar c || jsWhitespace c || c == '-')
      (jsTrimList (name.data.map jsLowerChar)))))⟩

/-! ### Character-level facts -/

lemma goodChar_toNat {c : Char} (h : goodChar c = true) :
    (97 ≤ c.toNat ∧ c.toNat ≤ 122) ∨ (48 ≤ c.toNat ∧ c.toNat ≤ 57) ∨ c.toNat = 45 := by
  simp only [goodChar, isLowerAlpha, isDigitChar, Bool.or_eq_true, Bool.and_eq_true,
    decide_eq_true_eq, beq_iff_eq] at h
  rcases h with (h | h) | h
  · exact Or.inl h
  · exact Or.inr (Or.inl h)
  · subst h; exact Or.inr (Or.inr rfl)

lemma goodChar_ws {c : Char} (h : goodChar c = true) : jsWhitespace c = false := by
  have h' := goodChar_toNat h
  cases hw : jsWhitespace c with
  | false => rfl
  | true =>
    exfalso
    simp only [jsWhitespace, Bool.or_eq_true, Bool.and_eq_true, decide_eq_true_eq,
      beq_iff_eq] at hw
    omega

lemma goodChar_lower {c : Char} (h : goodChar c = true) : jsLowerChar c = c := by
  have h' := goodChar_toNat h
  have hb : ¬ ((65 ≤ c.toNat && c.toNat ≤ 90) = true) := by
    simp only [Bool.and_eq_true, decide_eq_true_eq]
    omega
  unfold jsLowerChar
  exact if_neg hb

lemma goodChar_kept {c : Char} (h : goodChar c = true) : keptChar c = true := by
  simp only [goodChar, Bool.or_eq_true] at h
  simp only [keptChar, Bool.or_eq_true]
  tauto

lemma kept_not_ws_good {c : Char} (h1 : keptChar c = true) (h2 : jsWhitespace c = false) :
    goodChar c = true := by
  simp only [keptChar, h2, Bool.or_false, Bool.or_eq_true] at h1
  simp only [goodChar, Bool.or_eq_true]
  tauto

lemma not_hyphen_beq {c : Char} (hne : c ≠ '-') :
    (c == '-') = false := by
  cases hb : (c == '-') with
  | false => rfl
  | true => exact absurd (beq_iff_eq.mp hb) hne

/-! ### Facts about `collapseRuns` -/

lemma collapseRuns_nil (p : Char → Bool) (rep : Char) (b : Bool) :
    collapseRuns p rep [] b = [] := rfl

lemma collapseRuns_cons_pos_true {p : Char → Bool} {rep c : Char} {l : List Char}
    (h : p c = true) :
    collapseRuns p rep (c :: l) true = collapseRuns p rep l true := by
  simp [collapseRuns, h]

lemma collapseRuns_cons_pos_false {p : Char → Bool} {rep c : Char} {l : List Char}
    (h : p c = true) :
    collapseRuns p rep (c :: l) false = rep :: collapseRuns p rep l true := by
  simp [collapseRuns, h]

lemma collapseRuns_cons_neg {p : Char → Bool} {rep c : Char} {l : List Char} {b : Bool}
    (h : p c = false) :
    collapseRuns p rep (c :: l) b = c :: collapseRuns p rep l false := by
  simp [collapseRuns, h]

lemma mem_collapseRuns {p : Char → Bool} {rep d : Char} {l : List Char} {b : Bool}
    (h : d ∈ collapseRuns p rep l b) : d = rep ∨ (d ∈ l ∧ p d = false) := by
  induction l generalizing b with
  | nil => rw [collapseRuns_nil] at h; cases h
  | cons c l ih =>
    cases hc : p c with
    | true =>
      cases b with
      | true =>
        rw [collapseRuns_cons_pos_true hc] at h
        rcases ih h with h | ⟨h1, h2⟩
        · exact Or.inl h
        · exact Or.inr ⟨List.mem_cons_of_mem _ h1, h2⟩
      | false =>
        rw [collapseRuns_cons_pos_false hc] at h
        rcases List.mem_cons.mp h with h | h
        · exact Or.inl h
        · rcases ih h with h | ⟨h1, h2⟩
          · exact Or.inl h
          · exact Or.inr ⟨List.mem_cons_of_mem _ h1, h2⟩
    | false =>
      rw [collapseRuns_cons_neg hc] at h
      rcases List.mem_cons.mp h with h | h
      · subst h; exact Or.inr ⟨List.mem_cons_self _ _, hc⟩
      · rcases ih h with h | ⟨h1, h2⟩
        · exact Or.inl h
        · exact Or.inr ⟨List.mem_cons_of_mem _ h1, h2⟩

lemma collapseRuns_chain (p : Char → Bool) (rep : Char) (l : List Char) :
    (∀ b, List.Chain' (fun a c => p a = false ∨ p c = false) (collapseRuns p rep l b)) ∧
    (∀ d, (collapseRuns p rep l true).head? = some d → p d = false) := by
  induction l with
  | nil =>
    constructor
    · intro b; rw [collapseRuns_nil]; exact List.chain'_nil
    · intro d hd; rw [collapseRuns_nil] at hd; cases hd
  | cons c l ih =>
    obtain ⟨ih1, ih2⟩ := ih
    cases hc : p c with
    | true =>
      constructor
      · intro b
        cases b with
        | true => rw [collapseRuns_cons_pos_true hc]; exact ih1 true
        | false =>
          rw [collapseRuns_cons_pos_false hc]
          refine List.chain'_cons'.mpr ⟨?_, ih1 true⟩
          intro y hy
          exact Or.inr (ih2 y (Option.mem_def.mp hy))
      · intro d hd
        rw [collapseRuns_cons_pos_true hc] at hd
        exact ih2 d hd
    | false =>
      constructor
      · intro b
        rw [collapseRuns_cons_neg hc]
        refine List.chain'_cons'.mpr ⟨?_, ih1 false⟩
        intro y _
        exact Or.inl hc
      · intro d hd
        rw [collapseRuns_cons_neg hc] at hd
        simp only [List.head?_cons, Option.some.injEq] at hd
        subst hd; exact hc

lemma collapseRuns_all_neg {p : Char → Bool} {rep : Char} {l : List Char}
    (h : ∀ c ∈ l, p c = false) : ∀ b, collapseRuns p rep l b = l := by
  induction l with
  | nil => intro _; rfl
  | cons c l ih =>
    intro b
    rw [collapseRuns_cons_neg (h c (List.mem_cons_self _ _)),
      ih (fun d hd => h d (List.mem_cons_of_mem _ hd)) false]

lemma collapseRuns_id_aux {p : Char → Bool} {rep : Char}
    (hrep : ∀ c, p c = true → c = rep) :
    ∀ l : List Char, List.Chain' (fun a c => p a = false ∨ p c = false) l →
      collapseRuns p rep l false = l ∧
      ((∀ d, l.head? = some d → p d = false) → collapseRuns p rep l true = l) := by
  intro l
  induction l with
  | nil => intro _; exact ⟨rfl, fun _ => rfl⟩
  | cons c l ih =>
    intro hch
    obtain ⟨hhead, htail⟩ := List.chain'_cons'.mp hch
    obtain ⟨ih1, ih2⟩ := ih htail
    cases hc : p c with
    | true =>
      constructor
      · rw [collapseRuns_cons_pos_false hc]
        rw [ih2 ?_]
        · rw [hrep c hc]
        · intro d hd
          rcases hhead d (Option.mem_def.mpr hd) with h | h
          · rw [hc] at h; cases h
          · exact h
      · intro hd
        have := hd c rfl
        rw [hc] at this; cases this
    | false =>
      refine ⟨?_, fun _ => ?_⟩
      · rw [collapseRuns_cons_neg hc, ih1]
      · rw [collapseRuns_cons_neg hc, ih1]

/-! ### Facts about `dropTrailingWhile` and `List.dropWhile` -/

lemma dropTrailingWhile_cons (p : Char → Bool) (c : Char) (cs : List Char) :
    dropTrailingWhile p (c :: cs) =
      match dropTrailingWhile p cs with
      | [] => if p c then [] else [c]
      | d :: ds => c :: d :: ds := rfl

lemma dropTrailingWhile_head? {p : Char → Bool} {l : List Char} {d : Char}
    (h : (dropTrailingWhile p l).head? = some d) : l.head? = some d := by
  cases l with
  | nil => cases h
  | cons c cs =>
    rw [dropTrailingWhile_cons] at h
    cases hr : dropTrailingWhile p cs with
    | nil =>
      rw [hr] at h
      cases hpc : p c with
      | true =>
        rw [hpc] at h
        simp at h
      | false =>
        rw [hpc] at h
        have h' : ([c] : List Char).head? = some d := h
        simp only [List.head?_cons, Option.some.injEq] at h'
        rw [List.head?_cons, h']
    | cons e es =>
      rw [hr] at h
      have h' : (c :: e :: es).head? = some d := h
      simp only [List.head?_cons, Option.some.injEq] at h'
      rw [List.head?_cons, h']

lemma dropTrailingWhile_getLast? {p : Char → Bool} {l : List Char} {d : Char}
    (h : (dropTrailingWhile p l).getLast? = some d) : p d = false := by
  induction l with
  | nil => cases h
  | cons c cs ih =>
    rw [dropTrailingWhile_cons] at h
    cases hr : dropTrailingWhile p cs with
    | nil =>
      rw [hr] at h
      cases hpc : p c with
      | true =>
        rw [hpc] at h
        simp at h
      | false =>
        rw [hpc] at h
        have h' : ([c] : List Char).getLast? = some d := h
        simp only [List.getLast?_singleton, Option.some.injEq] at h'
        rw [← h']
        exact hpc
    | cons e es =>
      rw [hr] at h
      have h' : (c :: e :: es).getLast? = some d := h
      rw [List.getLast?_cons_cons, ← hr] at h'
      exact ih h'

lemma dropTrailingWhile_subset {p : Char → Bool} {l : List Char} {d : Char}
    (h : d ∈ dropTrailingWhile p l) : d ∈ l := by
  induction l with
  | nil => cases h
  | cons c cs ih =>
    rw [dropTrailingWhile_cons] at h
    cases hr : dropTrailingWhile p cs with
    | nil =>
      rw [hr] at h
      cases hpc : p c with
      | true =>
        rw [hpc] at h
        simp at h
      | false =>
        rw [hpc] at h
        have h' : d ∈ ([c] : List Char) := h
        simp only [List.mem_singleton] at h'
        subst h'; exact List.mem_cons_self _ _
    | cons e es =>
      rw [hr] at h
      have h' : d ∈ c :: e :: es := h
      rcases List.mem_cons.mp h' with h'' | h''
      · subst h''; exact List.mem_cons_self _ _
      · rw [← hr] at h''
        exact List.mem_cons_of_mem _ (ih h'')

lemma dropTrailingWhile_chain {R : Char → Char → Prop} {p : Char → Bool} {l : List Char}
    (h : List.Chain' R l) : List.Chain' R (dropTrailingWhile p l) := by
  induction l with
  | nil => exact h
  | cons c cs ih =>
    obtain ⟨hhead, htail⟩ := List.chain'_cons'.mp h
    rw [dropTrailingWhile_cons]
    cases hr : dropTrailingWhile p cs with
    | nil =>
      cases hpc : p c with
      | true => exact List.chain'_nil
      | false => exact List.chain'_singleton c
    | cons e es =>
      have hch : List.Chain' R (e :: es) := hr ▸ ih htail
      have hce : R c e := by
        have he : cs.head? = some e := dropTrailingWhile_head? (by rw [hr]; rfl)
        exact hhead e (Option.mem_def.mpr he)
      show List.Chain' R (c :: e :: es)
      refine List.chain'_cons'.mpr ⟨?_, hch⟩
      intro y hy
      have hey : e = y := by simpa using Option.mem_def.mp hy
      exact hey ▸ hce

lemma dropTrailingWhile_id {p : Char → Bool} {l : List Char}
    (h : ∀ d, l.getLast? = some d → p d = false) : dropTrailingWhile p l = l := by
  induction l with
  | nil => rfl
  | cons c cs ih =>
    cases cs with
    | nil =>
      have hc := h c rfl
      rw [dropTrailingWhile_cons]
      show (if p c then ([] : List Char) else [c]) = [c]
      rw [hc]
      simp
    | cons e es =>
      have hcs : dropTrailingWhile p (e :: es) = e :: es := by
        apply ih
        intro d hd
        apply h
        rw [List.getLast?_cons_cons]
        exact hd
      rw [dropTrailingWhile_cons, hcs]

lemma chain_dropWhile {R : Char → Char → Prop} {p : Char → Bool} {l : List Char}
    (h : List.Chain' R l) : List.Chain' R (l.dropWhile p) := by
  induction l with
  | nil => exact h
  | cons c cs ih =>
    rw [List.dropWhile_cons]
    split
    · exact ih (List.chain'_cons'.mp h).2
    · exact h

lemma head_dropWhile_false {p : Char → Bool} {l : List Char} {d : Char}
    (h : (l.dropWhile p).head? = some d) : p d = false := by
  have hm := List.head?_dropWhile_not p l
  rw [h] at hm
  exact hm

lemma mem_of_head? {l : List Char} {d : Char} (h : l.head? = some d) : d ∈ l := by
  cases l with
  | nil => cases h
  | cons c cs =>
    simp only [List.head?_cons, Option.some.injEq] at h
    subst h; exact List.mem_cons_self _ _

lemma mem_of_getLast? {l : List Char} {d : Char} (h : l.getLast? = some d) : d ∈ l := by
  induction l with
  | nil => cases h
  | cons c cs ih =>
    cases cs with
    | nil =>
      simp only [List.getLast?_singleton, Option.some.injEq] at h
      subst h; exact List.mem_cons_self _ _
    | cons e es =>
      rw [List.getLast?_cons_cons] at h
      exact List.mem_cons_of_mem _ (ih h)

lemma dropWhile_id {p : Char → Bool} {l : List Char}
    (h : ∀ d, l.head? = some d → p d = false) : l.dropWhile p = l := by
  cases l with
  | nil => rfl
  | cons c cs =>
    rw [List.dropWhile_cons]
    have hc := h c rfl
    simp [hc]

lemma map_id_of_fix {f : Char → Char} {l : List Char}
    (h : ∀ c ∈ l, f c = c) : l.map f = l := by
  induction l with
  | nil => rfl
  | cons c cs ih =>
    rw [List.map_cons, h c (List.mem_cons_self _ _),
      ih (fun d hd => h d (List.mem_cons_of_mem _ hd))]

/-! ### The sanitizer output invariant -/

/-- Every property of the sanitizer output needed below: all characters are
lowercase letters, digits or hyphens; no two adjacent hyphens; the first and
the last character are not hyphens. -/
lemma format_props (s : String) :
    (∀ c ∈ (formatGameNameForFilesystem s).data, goodChar c = true) ∧
    List.Chain' (fun a b => ((a == '-') = false) ∨ ((b == '-') = false))
      (formatGameNameForFilesystem s).data ∧
    (∀ d, (formatGameNameForFilesystem s).data.head? = some d → (d == '-') = false) ∧
    (∀ d, (formatGameNameForFilesystem s).data.getLast? = some d → (d == '-') = false) := by
  set l0 := List.filter keptChar (jsTrimList (s.data.map jsLowerChar)) with hl0
  have hdata : (formatGameNameForFilesystem s).data =
      dropTrailingWhile (fun c => c == '-')
        ((collapseHyphensList (collapseWsList l0)).dropWhile (fun c => c == '-')) := rfl
  have h0 : ∀ c ∈ l0, keptChar c = true := by
    intro c hc
    exact (List.mem_filter.mp hc).2
  have h1 : ∀ c ∈ collapseWsList l0, goodChar c = true := by
    intro c hc
    rcases mem_collapseRuns hc with rfl | ⟨hmem, hws⟩
    · decide
    · exact kept_not_ws_good (h0 c hmem) hws
  have h2 : ∀ c ∈ collapseHyphensList (collapseWsList l0), goodChar c = true := by
    intro c hc
    rcases mem_collapseRuns hc with rfl | ⟨hmem, _⟩
    · decide
    · exact h1 c hmem
  have hchain2 : List.Chain' (fun a b => ((a == '-') = false) ∨ ((b == '-') = false))
      (collapseHyphensList (collapseWsList l0)) :=
    (collapseRuns_chain (fun c => c == '-') '-' (collapseWsList l0)).1 false
  rw [hdata]
  refine ⟨?_, ?_, ?_, ?_⟩
  · intro c hc
    have hc' : c ∈ (collapseHyphensList (collapseWsList l0)).dropWhile (fun c => c == '-') :=
      dropTrailingWhile_subset hc
    exact h2 c ((List.dropWhile_sublist _).mem hc')
  · exact dropTrailingWhile_chain (chain_dropWhile hchain2)
  · intro d hd
    have h1 : (List.dropWhile (fun c => c == '-')
        (collapseHyphensList (collapseWsList l0))).head? = some d :=
      dropTrailingWhile_head? hd
    exact @head_dropWhile_false (fun c => c == '-') _ d h1
  · intro d hd
    exact @dropTrailingWhile_getLast? (fun c => c == '-') _ d hd

/-- Applying the sanitizer to a string that already satisfies the output
invariant is the identity. -/
lemma format_fixed {r : String}
    (hg : ∀ c ∈ r.data, goodChar c = true)
    (hch : List.Chain' (fun a b => ((a == '-') = false) ∨ ((b == '-') = false)) r.data)
    (hhd : ∀ d, r.data.head? = some d → (d == '-') = false)
    (hlast : ∀ d, r.data.getLast? = some d → (d == '-') = false) :
    formatGameNameForFilesystem r = r := by
  have e1 : r.data.map jsLowerChar = r.data :=
    map_id_of_fix (fun c hc => goodChar_lower (hg c hc))
  have hws : ∀ c ∈ r.data, jsWhitespace c = false := fun c hc => goodChar_ws (hg c hc)
  have e2 : jsTrimList r.data = r.data := by
    unfold jsTrimList
    rw [dropWhile_id (fun d hd => hws d (mem_of_head? hd))]
    exact dropTrailingWhile_id (fun d hd => hws d (mem_of_getLast? hd))
  have e3 : List.filter keptChar r.data = r.data :=
    List.filter_eq_self.mpr (fun c hc => goodChar_kept (hg c hc))
  have e4 : collapseWsList r.data = r.data :=
    collapseRuns_all_neg hws false
  have e5 : collapseHyphensList r.data = r.data := by
    have hrep : ∀ c : Char, (c == '-') = true → c = '-' := fun c hc => beq_iff_eq.mp hc
    exact (collapseRuns_id_aux hrep r.data hch).1
  have e6 : trimHyphensList r.data = r.data := by
    unfold trimHyphensList
    rw [dropWhile_id hhd]
    exact dropTrailingWhile_id hlast
  show (⟨trimHyphensList (collapseHyphensList (collapseWsList
    (List.filter keptChar (jsTrimList (r.data.map jsLowerChar)))))⟩ : String) = r
  rw [e1, e2, e3, e4, e5, e6]

/-- C8: the name-sanitization function is idempotent: applying
`formatGameNameForFilesystem` to its own output returns that output
unchanged, for every input string. -/
theorem formatGameNameForFilesystem_idempotent (s : String) :
    formatGameNameForFilesystem (formatGameNameForFilesystem s) =
      formatGameNameForFilesystem s := by
  obtain ⟨hg, hch, hhd, hlast⟩ := format_props s
  exact format_fixed hg hch hhd hlast

/-- C9: for every input string, the output of `formatGameNameForFilesystem`
contains only lowercase ASCII letters, digits and hyphens, has no two
consecutive hyphens, and neither starts nor ends with a hyphen. -/
theorem format_output_invariant (s : String) :
    (∀ c ∈ (formatGameNameForFilesystem s).data,
      isLowerAlpha c = true ∨ isDigitChar c = true ∨ c = '-') ∧
    List.Chain' (fun a b => ¬(a = '-' ∧ b = '-')) (formatGameNameForFilesystem s).data ∧
    (∀ d, (formatGameNameForFilesystem s).data.head? = some d → d ≠ '-') ∧
    (∀ d, (formatGameNameForFilesystem s).data.getLast? = some d → d ≠ '-') := by
  obtain ⟨hg, hch, hhd, hlast⟩ := format_props s
  refine ⟨?_, ?_, ?_, ?_⟩
  · intro c hc
    have h := hg c hc
    simp only [goodChar, Bool.or_eq_true, beq_iff_eq] at h
    tauto
  · refine hch.imp ?_
    intro a b hab hcon
    rcases hab with h | h
    · rw [hcon.1] at h; simp at h
    · rw [hcon.2] at h; simp at h
  · intro d hd he
    have h := hhd d hd
    rw [he] at h
    simp at h
  · intro d hd he
    have h := hlast d hd
    rw [he] at h
    simp at h

/-- C9 witness: the invariant evaluated on the concrete input "My Game!!",
whose sanitized form starts with the letter m. -/
theorem format_output_invariant_witness : 'm' ≠ '-' :=
  (format_output_invariant "My Game!!").2.2.1 'm' (by decide)

/-- C1 counterexample: on the input "a<TAB>b" the code keeps the tab (the
regex class backslash-s) and turns it into a hyphen, while the spec's literal
step 2 (keep only letters, digits, the space character, and hyphens) deletes
it, so the five-step algorithm as written does not reproduce the code. -/
theorem format_ne_specSanitize_tab :
    ¬ (formatGameNameForFilesystem "a\tb" = specSanitize "a\tb") := by decide

/-- C1 amended: with step 2 amended to keep every whitespace character (as
the code's regex class does) rather than only the space character, the
five-step algorithm reproduces `formatGameNameForFilesystem` on every input,
and sanitizing "My Game!!" gives "my-game". -/
theorem format_eq_specSanitizeAmended :
    (∀ s, formatGameNameForFilesystem s = specSanitizeAmended s) ∧
    formatGameNameForFilesystem "My Game!!" = "my-game" :=
  ⟨fun _ => rfl, by decide⟩

/-! ### The catalog and its ordering (Catalog Manager)

`loadGames` and `createNewGame` in App.tsx sort the scanner result with
`result.sort((a, b) => b.last_modified - a.last_modified)`. -/

/-- A catalog entry as returned by the backend command
`read_folders_from_path` (interface `GameEntry` in App.tsx): directory name,
absolute path, last-modified Unix timestamp in seconds. -/
structure GameEntry where
  name : String
  path : String
  last_modified : Nat
deriving DecidableEq, Repr

/-- The ordering induced by the comparator `b.last_modified - a.last_modified`
used in `loadGames`: `gameLE a b` holds when the comparator on `(a, b)` is
non-positive, i.e. when `a` may come before `b`. -/
def gameLE (a b : GameEntry) : Prop :=
  b.last_modified ≤ a.last_modified

instance : DecidableRel gameLE := fun _ _ => Nat.decLe _ _

/-- Model of `Array.prototype.sort` with the comparator above.  JavaScript sort is
required to be stable, and for a consistent comparator such as this one every
stable sort produces the same output, so it is modelled by a stable insertion
sort: an entry is placed before another whenever the comparator allows it,
which keeps entries with equal `last_modified` in their original order. -/
def sortGames (l : List GameEntry) : List GameEntry :=
  List.insertionSort gameLE l

/-- Lexicographic order on code points, used to state the claim's
"name ascending" tie-break. -/
def strLeb : List Char → List Char → Bool
  | [], _ => true
  | _ :: _, [] => false
  | c :: cs, d :: ds => if c = d then strLeb cs ds else decide (c < d)

/-- The ordering asserted by claim C2: `lastModified` descending, and any two
entries with equal `lastModified` ordered by `name` ascending. -/
def catalogOrderedClaim (l : List GameEntry) : Prop :=
  l.Pairwise (fun a b => b.last_modified < a.last_modified ∨
    (b.last_modified = a.last_modified ∧ strLeb a.name.data b.name.data = true))

instance : Decidable (catalogOrderedClaim l) :=
  List.instDecidablePairwise l

/-- C2 counterexample: two scan entries with equal `lastModified` whose names
are out of alphabetical order stay in scan order, because the comparator
`b.last_modified - a.last_modified` returns 0 on ties and the stable sort
keeps their relative order; there is no name tie-break in the code. -/
theorem sortGames_not_name_tiebreak :
    ¬ catalogOrderedClaim (sortGames
      [⟨"b", "/games/b", 5⟩, ⟨"a", "/games/a", 5⟩]) := by decide

/-- C2 amended: the displayed catalog is the scan result sorted by
`lastModified` descending; entries with equal `lastModified` keep their
relative order from the scan result (stable sort), with no name tie-break. -/
theorem sortGames_spec (l : List GameEntry) :
    List.Perm (sortGames l) l ∧
    (sortGames l).Pairwise gameLE ∧
    (∀ a b : GameEntry, [a, b].Sublist l → b.last_modified ≤ a.last_modified →
      [a, b].Sublist (sortGames l)) := by
  haveI : IsTotal GameEntry gameLE := ⟨fun a b => Nat.le_total _ _⟩
  haveI : IsTrans GameEntry gameLE := ⟨fun _ _ _ hab hbc => Nat.le_trans hbc hab⟩
  refine ⟨List.perm_insertionSort _ _, List.sorted_insertionSort _ _, ?_⟩
  intro a b hsub hle
  exact List.pair_sublist_insertionSort hle hsub

/-- C2 witness: the stability clause applied to the two tied entries. -/
theorem sortGames_spec_witness :
    [(⟨"b", "/games/b", 5⟩ : GameEntry), ⟨"a", "/games/a", 5⟩].Sublist
      (sortGames [⟨"b", "/games/b", 5⟩, ⟨"a", "/games/a", 5⟩]) :=
  (sortGames_spec _).2.2 _ _ (List.Sublist.refl _) (by decide)

/-! ### Catalog Manager effect model (C3, C10) -/

/-- Outcome of one backend scan: the invoked Rust command either resolves
with the entries or rejects with a message. -/
inductive ScanOutcome where
  | ok (entries : List GameEntry)
  | err (msg : String)
deriving DecidableEq

/-- The component state of the app relevant to catalog loading: the selected
root, the displayed games, the loading flag, the error, plus the in-flight
scans (one entry per started, unanswered `read_folders_from_path`
invocation, tagged with the root it was started for). -/
structure CatalogState where
  selectedPath : Option String
  games : List GameEntry
  loading : Bool
  error : Option String
  pending : List String
deriving DecidableEq

/-- Events of the catalog effect: the user picks a root (the effect keyed on
`selectedPath` then immediately starts a scan for it), or an in-flight scan
for root `r` completes with an outcome. -/
inductive CatalogEv where
  | selectRoot (r : String)
  | scanArrives (r : String) (outcome : ScanOutcome)
deriving DecidableEq

/-- One step of the catalog effect, from `loadGames` in App.tsx.
`selectRoot` models `setSelectedPath` followed by the effect re-run
(`setLoading(true); setError(null)` and the `invoke`); `scanArrives` models
the continuation after the `await`: on success `setGames(sortedGames)`, on
failure `setError(...)` then `setGames([])`, and `setLoading(false)` in the
`finally` block.  The continuation runs unconditionally — the code never
compares the scan's root with the currently selected one. -/
def catalogStep (s : CatalogState) : CatalogEv → CatalogState
  | .selectRoot r =>
    { s with selectedPath := some r, loading := true, error := none,
             pending := r :: s.pending }
  | .scanArrives r outcome =>
    if r ∈ s.pending then
      match outcome with
      | .ok entries =>
        { s with games := sortGames entries, loading := false,
                 pending := s.pending.erase r }
      | .err m =>
        { s with error := some m, games := [], loading := false,
                 pending := s.pending.erase r }
    else s

/-- Run a list of catalog events from a state. -/
def catalogRun (s : CatalogState) : List CatalogEv → CatalogState
  | [] => s
  | e :: es => catalogRun (catalogStep s e) es

/-- The mount-time state: no root selected, empty catalog. -/
def catalogInit : CatalogState :=
  { selectedPath := none, games := [], loading := false, error := none,
    pending := [] }

/-- The discard property asserted by claim C3: a scan result arriving for a
root other than the currently selected one never changes the displayed
catalog. -/
def staleScanDiscarded : Prop :=
  ∀ (evs : List CatalogEv) (r : String) (o : ScanOutcome),
    (catalogRun catalogInit evs).selectedPath ≠ some r →
    (catalogStep (catalogRun catalogInit evs) (.scanArrives r o)).games =
      (catalogRun catalogInit evs).games

/-- C3: evaluation of the code at the failing trace.  A scan is started for
root /r1, the root changes to /r2 (starting a second scan), and then the /r1
scan resolves: its result is applied, so the displayed catalog is set from a
scan whose root differs from the selected root — the discard property the
spec requires does not hold. -/
theorem staleScan_applied :
    (catalogRun catalogInit
      [.selectRoot "/r1", .selectRoot "/r2",
       .scanArrives "/r1" (.ok [⟨"stale", "/r1/stale", 7⟩])]).selectedPath =
      some "/r2" ∧
    (catalogRun catalogInit
      [.selectRoot "/r1", .selectRoot "/r2",
       .scanArrives "/r1" (.ok [⟨"stale", "/r1/stale", 7⟩])]).games =
      [⟨"stale", "/r1/stale", 7⟩] ∧
    ¬ staleScanDiscarded := by
  refine ⟨by decide, by decide, ?_⟩
  intro h
  have hc := h [.selectRoot "/r1", .selectRoot "/r2"] "/r1"
    (.ok [⟨"stale", "/r1/stale", 7⟩]) (by decide)
  exact absurd hc (by decide)

/-- C10: whenever an in-flight scan for the selected root fails, the
displayed catalog is set to the empty list (the previous entries are
dropped) and the error message is recorded. -/
theorem scanFailure_clears_catalog (s : CatalogState) (r m : String)
    (_hsel : s.selectedPath = some r) (hp : r ∈ s.pending) :
    (catalogStep s (.scanArrives r (.err m))).games = [] ∧
    (catalogStep s (.scanArrives r (.err m))).error = some m := by
  simp only [catalogStep, if_pos hp]
  exact ⟨trivial, trivial⟩

/-- C10 witness: a failing scan of the selected root /r, arriving over a
non-empty displayed catalog, clears it. -/
theorem scanFailure_clears_catalog_witness :
    (catalogStep
      { selectedPath := some "/r", games := [⟨"g", "/r/g", 1⟩], loading := true,
        error := none, pending := ["/r"] }
      (.scanArrives "/r" (.err "boom"))).games = [] ∧
    (catalogStep
      { selectedPath := some "/r", games := [⟨"g", "/r/g", 1⟩], loading := true,
        error := none, pending := ["/r"] }
      (.scanArrives "/r" (.err "boom"))).error = some "boom" :=
  scanFailure_clears_catalog _ "/r" "boom" (by decide) (by decide)

/-! ### Settings Store model (C4) -/

/-- State of the settings flow.  `initPC` is the program counter of the
mount-time routine in App.tsx: 0 = `Store.load` pending, 1 = the store
resolved and `setStore` ran, 2 = the saved path was read and applied,
3 = the `finally` block ran (`initializing` is now false).  `storeLoaded`
mirrors `store !== null`, `persisted` is the durable record on disk. -/
structure SettingsState where
  initPC : Nat
  storeLoaded : Bool
  selectedPath : Option String
  persisted : Option String
deriving DecidableEq

inductive SettingsEv where
  | loadOk
  | loadFail
  | getSaved
  | finishInit
  | userSelect (p : String)
  | saveFires
deriving DecidableEq

/-- Guarded transitions of the settings flow.  `loadOk` is `await Store.load`
resolving followed by `setStore`; `loadFail` is the rejection path, where the
catch logs and the `finally` clears `initializing` with the store still null;
`getSaved` is `await appStore.get` followed by
`if (savedPath) setSelectedPath(savedPath)`; `finishInit` is the `finally`
block; `userSelect` is `selectGamesFolder` resolving with a directory;
`saveFires` is the body of the write-back effect, guarded exactly as in the
code — the effect returns early unless the store is set and `initializing`
is false — and it persists the current `selectedPath`. -/
inductive SettingsStep : SettingsState → SettingsEv → SettingsState → Prop where
  | loadOk {s : SettingsState} (h : s.initPC = 0) :
      SettingsStep s .loadOk { s with initPC := 1, storeLoaded := true }
  | loadFail {s : SettingsState} (h : s.initPC = 0) :
      SettingsStep s .loadFail { s with initPC := 3 }
  | getSaved {s : SettingsState} (h : s.initPC = 1) :
      SettingsStep s .getSaved
        { s with initPC := 2,
                 selectedPath := match s.persisted with
                   | some v => some v
                   | none => s.selectedPath }
  | finishInit {s : SettingsState} (h : s.initPC = 2) :
      SettingsStep s .finishInit { s with initPC := 3 }
  | userSelect {s : SettingsState} (p : String) :
      SettingsStep s (.userSelect p) { s with selectedPath := some p }
  | saveFires {s : SettingsState} (h1 : s.storeLoaded = true) (h2 : s.initPC = 3) :
      SettingsStep s .saveFires { s with persisted := s.selectedPath }

/-- Reachability from a start state through settings transitions. -/
inductive SettingsReachable (s₀ : SettingsState) : SettingsState → Prop where
  | refl : SettingsReachable s₀ s₀
  | tail {s s' : SettingsState} {e : SettingsEv} :
      SettingsReachable s₀ s → SettingsStep s e s' → SettingsReachable s₀ s'

/-- The process start state: nothing loaded yet, `persisted` is whatever the
settings file holds from earlier sessions. -/
def settingsInit (persisted : Option String) : SettingsState :=
  { initPC := 0, storeLoaded := false, selectedPath := none,
    persisted := persisted }

/-- The inductive invariant behind C4: the persisted root is never lost, the
store flag implies the load resolved, and once the saved path was read (with
the store set) the in-memory selection is non-absent. -/
lemma settings_inv {v₀ : String} {s : SettingsState}
    (h : SettingsReachable (settingsInit (some v₀)) s) :
    (∃ v, s.persisted = some v) ∧
    (s.storeLoaded = true → 1 ≤ s.initPC) ∧
    (2 ≤ s.initPC → s.storeLoaded = true → ∃ p, s.selectedPath = some p) := by
  induction h with
  | refl =>
    refine ⟨⟨v₀, rfl⟩, ?_, ?_⟩
    · intro hb; cases hb
    · intro h2; simp [settingsInit] at h2
  | tail hreach hstep ih =>
    obtain ⟨⟨v, hv⟩, hload, hsel⟩ := ih
    cases hstep with
    | loadOk h =>
      refine ⟨⟨v, hv⟩, ?_, ?_⟩
      · intro _; simp
      · intro h2 _; simp at h2
    | loadFail h =>
      refine ⟨⟨v, hv⟩, ?_, ?_⟩
      · intro _; simp
      · intro _ hb
        simp only at hb
        have h1 := hload hb
        omega
    | getSaved h =>
      refine ⟨⟨v, hv⟩, ?_, fun _ _ => ?_⟩
      · intro _; simp
      · exact ⟨v, by simp [hv]⟩
    | finishInit h =>
      refine ⟨⟨v, hv⟩, ?_, ?_⟩
      · intro _; simp
      · intro _ hb
        simp only at hb
        have hs := hsel (by omega) hb
        simpa using hs
    | userSelect p =>
      refine ⟨⟨v, hv⟩, ?_, fun _ _ => ⟨p, by simp⟩⟩
      intro hb
      simp only at hb ⊢
      exact hload hb
    | saveFires h1 h2 =>
      obtain ⟨p, hp⟩ := hsel (by omega) h1
      refine ⟨⟨p, by simp [hp]⟩, ?_, fun _ _ => ⟨p, by simp [hp]⟩⟩
      intro _
      simp only
      omega

/-- C4: starting from a state whose settings file holds a persisted root,
every write-back (`saveFires`) happens only after the initial load routine
has completed with the store set, and the persisted root path is never
overwritten with the pre-load default (absent): it always remains present. -/
theorem settings_no_early_overwrite (v₀ : String) (s : SettingsState)
    (h : SettingsReachable (settingsInit (some v₀)) s) :
    (∃ v, s.persisted = some v) ∧
    (∀ (s' : SettingsState), SettingsStep s .saveFires s' →
      s.storeLoaded = true ∧ s.initPC = 3 ∧ ∃ v, s'.persisted = some v) := by
  obtain ⟨hpers, _, hsel⟩ := settings_inv h
  refine ⟨hpers, ?_⟩
  intro s' hstep
  cases hstep with
  | saveFires h1 h2 =>
    obtain ⟨p, hp⟩ := hsel (by omega) h1
    exact ⟨h1, h2, ⟨p, by simp [hp]⟩⟩

/-- C4 witness: the full happy path — load, read the saved root, finish
initialization, then a write-back — ends with the persisted root still
present. -/
theorem settings_no_early_overwrite_witness :
    ∃ v, (⟨3, true, some "/saved", some "/saved"⟩ : SettingsState).persisted =
      some v := by
  have h1 : SettingsStep (settingsInit (some "/saved")) SettingsEv.loadOk
      ⟨1, true, none, some "/saved"⟩ := SettingsStep.loadOk rfl
  have h2 : SettingsStep ⟨1, true, none, some "/saved"⟩ SettingsEv.getSaved
      ⟨2, true, some "/saved", some "/saved"⟩ := SettingsStep.getSaved rfl
  have h3 : SettingsStep ⟨2, true, some "/saved", some "/saved"⟩
      SettingsEv.finishInit ⟨3, true, some "/saved", some "/saved"⟩ :=
    SettingsStep.finishInit rfl
  have hr : SettingsReachable (settingsInit (some "/saved"))
      ⟨3, true, some "/saved", some "/saved"⟩ :=
    .tail (.tail (.tail .refl h1) h2) h3
  exact (settings_no_early_overwrite "/saved" _ hr).1

/-! ### Update subsystem model (C5) -/

/-- App state of the updater: the flags of App.tsx plus `downloadStarted`,
recording that `updateInfo.downloadAndInstall` has ever been invoked. -/
structure UpdateState where
  checkingUpdate : Bool
  updateAvailable : Bool
  hasUpdateInfo : Bool
  downloading : Bool
  downloadStarted : Bool
deriving DecidableEq

inductive UpdateEv where
  | checkStart
  | checkDone (available : Bool)
  | clickUpdateNow
  | clickDismiss
  | installFail
deriving DecidableEq

/-- One transition of the updater, from `checkForUpdates`, `handleUpdate` and
the notification UI in App.tsx.  `checkDone true` models `check()` resolving
with an available update: it records availability and the manifest and
nothing more.  `handleUpdate` — and with it the call to
`updateInfo.downloadAndInstall` — runs only from the Update Now button's
onClick handler, rendered only while `updateAvailable` and disabled while
`downloading`; `handleUpdate` itself returns early without `updateInfo`. -/
def updateStep (s : UpdateState) : UpdateEv → UpdateState
  | .checkStart => { s with checkingUpdate := true }
  | .checkDone avail =>
    if avail then
      { s with checkingUpdate := false, updateAvailable := true,
               hasUpdateInfo := true }
    else { s with checkingUpdate := false }
  | .clickUpdateNow =>
    if s.updateAvailable ∧ s.hasUpdateInfo ∧ ¬ s.downloading then
      { s with downloading := true, downloadStarted := true }
    else s
  | .clickDismiss => { s with updateAvailable := false }
  | .installFail => { s with downloading := false }

/-- Run a list of updater events from a state. -/
def updateRun (s : UpdateState) : List UpdateEv → UpdateState
  | [] => s
  | e :: es => updateRun (updateStep s e) es

/-- The app-start state of the updater. -/
def updateInit : UpdateState :=
  { checkingUpdate := false, updateAvailable := false, hasUpdateInfo := false,
    downloading := false, downloadStarted := false }

lemma updateStep_preserves_not_started {s : UpdateState} {e : UpdateEv}
    (hs : s.downloadStarted = false) (he : e ≠ UpdateEv.clickUpdateNow) :
    (updateStep s e).downloadStarted = false := by
  cases e with
  | checkStart => exact hs
  | checkDone avail => cases avail <;> simp [updateStep, hs]
  | clickUpdateNow => exact absurd rfl he
  | clickDismiss => exact hs
  | installFail => exact hs

lemma updateRun_started_mem {evs : List UpdateEv} :
    ∀ {s : UpdateState}, (updateRun s evs).downloadStarted = true →
      s.downloadStarted = false → UpdateEv.clickUpdateNow ∈ evs := by
  induction evs with
  | nil => intro s h hs; rw [updateRun] at h; rw [hs] at h; cases h
  | cons e es ih =>
    intro s h hs
    by_cases he : e = UpdateEv.clickUpdateNow
    · subst he; exact List.mem_cons_self _ _
    · rw [updateRun] at h
      exact List.mem_cons_of_mem _
        (ih h (updateStep_preserves_not_started hs he))

/-- C5: in every execution of the updater, the download/install call happens
only after the user explicitly clicked Update Now, and the mere arrival of an
available-update check result never changes whether a download has started. -/
theorem update_requires_confirmation :
    (∀ evs : List UpdateEv,
      (updateRun updateInit evs).downloadStarted = true →
      UpdateEv.clickUpdateNow ∈ evs) ∧
    (∀ (s : UpdateState) (avail : Bool),
      (updateStep s (.checkDone avail)).downloadStarted = s.downloadStarted) := by
  constructor
  · intro evs h
    exact updateRun_started_mem h rfl
  · intro s avail
    cases avail <;> simp [updateStep]

/-- C5 witness: in the trace check-start, update-found, Update-Now-click the
download does start, and the claim recovers the click from that fact. -/
theorem update_requires_confirmation_witness :
    UpdateEv.clickUpdateNow ∈
      [UpdateEv.checkStart, UpdateEv.checkDone true, UpdateEv.clickUpdateNow] :=
  update_requires_confirmation.1 _ (by decide)

/-! ### Folder Creator model (C6, C7) -/

/-- Model of `String.prototype.trim`. -/
def jsTrimString (s : String) : String :=
  ⟨jsTrimList s.data⟩

/-- Errors surfaced by the model backend for item creation. -/
inductive CreateError where
  | alreadyExists
deriving DecidableEq

/-- Modelled from the spec: the Rust backend command `create_game_folder` is
not part of the sources (only its invocation from App.tsx is).  Per the spec
the Folder Creator "creates a directory at root/sanitized-name; fails with
`AlreadyExists` on collision (never overwrites)".  The directory tree under
the root is a list of (name, last-modified) pairs; creation appends a new
directory stamped `now` and touches nothing else. -/
def create_game_folder (fs : List (String × Nat)) (folderName : String)
    (now : Nat) : Except CreateError (List (String × Nat)) :=
  if folderName ∈ fs.map Prod.fst then .error .alreadyExists
  else .ok (fs ++ [(folderName, now)])

/-- Modelled from the spec: the Rust backend command `read_folders_from_path`
(the Filesystem Scanner) is not part of the sources; per the spec it "lists
immediate subdirectories of a root path with name, absolute path,
last-modified time". -/
def read_folders_from_path (root : String) (fs : List (String × Nat)) :
    List GameEntry :=
  fs.map (fun nt =>
    { name := nt.1, path := root ++ "/" ++ nt.1, last_modified := nt.2 })

/-- The app state relevant to `createNewGame`. -/
structure CreateState where
  selectedPath : Option String
  newGameName : String
  gameType : Option String
  games : List GameEntry
  error : Option String
  showCreateModal : Bool
deriving DecidableEq

/-- Model of `createNewGame` from App.tsx, as a function of the app state and the
directory tree, returning the new app state and the new tree.  The first
guard returns silently (no error is set) when no root is selected, the raw
name is blank after trimming, or no game type was chosen; a raw name that
survives the guard but sanitizes to the empty string sets the
"Please enter a valid game name" error and stops; a backend failure is
caught and sets the error message; on success the catalog is re-scanned,
sorted newest-first, and the modal state resets. -/
def createNewGame (s : CreateState) (fs : List (String × Nat)) (now : Nat) :
    CreateState × List (String × Nat) :=
  if s.selectedPath = none ∨ jsTrimString s.newGameName = "" ∨ s.gameType = none then
    (s, fs)
  else
    let formattedName := formatGameNameForFilesystem s.newGameName
    if formattedName = "" then
      ({ s with error := some "Please enter a valid game name" }, fs)
    else
      match create_game_folder fs formattedName now with
      | .error .alreadyExists =>
        ({ s with error := some "Failed to create game folder" }, fs)
      | .ok fsNew =>
        ({ s with
            games := sortGames (read_folders_from_path
              (s.selectedPath.getD "") fsNew),
            showCreateModal := false, newGameName := "", gameType := none,
            error := none }, fsNew)

/-- C6: when the sanitized target name already exists under the root, the
backend rejects with AlreadyExists, the directory tree is unchanged (the
existing directory is not overwritten, nothing is added) and the displayed
catalog is unchanged by the failed attempt. -/
theorem createNewGame_alreadyExists (s : CreateState) (fs : List (String × Nat))
    (now : Nat)
    (hroot : s.selectedPath ≠ none)
    (htrim : jsTrimString s.newGameName ≠ "")
    (htype : s.gameType ≠ none)
    (hne : formatGameNameForFilesystem s.newGameName ≠ "")
    (hex : formatGameNameForFilesystem s.newGameName ∈ fs.map Prod.fst) :
    create_game_folder fs (formatGameNameForFilesystem s.newGameName) now =
      .error .alreadyExists ∧
    (createNewGame s fs now).2 = fs ∧
    (createNewGame s fs now).1.games = s.games := by
  have h1 : ¬ (s.selectedPath = none ∨ jsTrimString s.newGameName = "" ∨
      s.gameType = none) := by
    intro h; rcases h with h | h | h
    · exact hroot h
    · exact htrim h
    · exact htype h
  have hback : create_game_folder fs (formatGameNameForFilesystem s.newGameName)
      now = .error .alreadyExists := by
    unfold create_game_folder
    rw [if_pos hex]
  refine ⟨hback, ?_, ?_⟩ <;>
    simp only [createNewGame, if_neg h1, if_neg hne, hback]

/-- C6 witness: creating "foo" while the directory foo already exists. -/
theorem createNewGame_alreadyExists_witness :
    create_game_folder [("foo", 3)]
      (formatGameNameForFilesystem "foo") 9 = .error .alreadyExists ∧
    (createNewGame
      { selectedPath := some "/games", newGameName := "foo",
        gameType := some "2d", games := [⟨"foo", "/games/foo", 3⟩],
        error := none, showCreateModal := true } [("foo", 3)] 9).2 =
      [("foo", 3)] ∧
    (createNewGame
      { selectedPath := some "/games", newGameName := "foo",
        gameType := some "2d", games := [⟨"foo", "/games/foo", 3⟩],
        error := none, showCreateModal := true } [("foo", 3)] 9).1.games =
      [⟨"foo", "/games/foo", 3⟩] :=
  createNewGame_alreadyExists
    { selectedPath := some "/games", newGameName := "foo",
      gameType := some "2d", games := [⟨"foo", "/games/foo", 3⟩],
      error := none, showCreateModal := true } [("foo", 3)] 9
    (by decide) (by decide) (by decide) (by decide) (by decide)

/-- C7 counterexample: the all-whitespace name "   " sanitizes to the empty
string, but `createNewGame` does not fail with the invalid-name error: the
first guard (`!newGameName.trim()`) returns silently before the sanitizer
runs, so no error is reported (and no directory is created). -/
theorem createNewGame_blank_silent :
    formatGameNameForFilesystem "   " = "" ∧
    (createNewGame
      { selectedPath := some "/games", newGameName := "   ",
        gameType := some "2d", games := [], error := none,
        showCreateModal := true } [] 0).1.error = none ∧
    (createNewGame
      { selectedPath := some "/games", newGameName := "   ",
        gameType := some "2d", games := [], error := none,
        showCreateModal := true } [] 0).2 = [] := by decide

/-- C7 amended: for every input whose sanitized form is empty no directory is
created and the catalog is unchanged; if the raw name is nonempty after
trimming (e.g. "!!!") the invalid-name error "Please enter a valid game name"
is reported, while a name that is blank after trimming (e.g. "   ") is
rejected by the early guard silently, leaving the state untouched. -/
theorem createNewGame_emptySlug (s : CreateState) (fs : List (String × Nat))
    (now : Nat)
    (hempty : formatGameNameForFilesystem s.newGameName = "") :
    (createNewGame s fs now).2 = fs ∧
    (createNewGame s fs now).1.games = s.games ∧
    (s.selectedPath ≠ none → s.gameType ≠ none →
      (jsTrimString s.newGameName ≠ "" →
        (createNewGame s fs now).1.error = some "Please enter a valid game name") ∧
      (jsTrimString s.newGameName = "" → (createNewGame s fs now).1 = s)) := by
  by_cases h1 : s.selectedPath = none ∨ jsTrimString s.newGameName = "" ∨
      s.gameType = none
  · simp only [createNewGame, if_pos h1]
    refine ⟨trivial, trivial, ?_⟩
    intro hroot htype
    constructor
    · intro htrim
      exfalso
      rcases h1 with h | h | h
      · exact hroot h
      · exact htrim h
      · exact htype h
    · intro _; trivial
  · simp only [createNewGame, if_neg h1, if_pos hempty]
    refine ⟨trivial, trivial, ?_⟩
    intro _ _
    constructor
    · intro _; trivial
    · intro htrim
      exfalso
      exact h1 (Or.inr (Or.inl htrim))

/-- C7 witness: "!!!" trims to itself but sanitizes to the empty string, so
the invalid-name error is reported. -/
theorem createNewGame_emptySlug_witness :
    (createNewGame
      { selectedPath := some "/games", newGameName := "!!!",
        gameType := some "2d", games := [], error := none,
        showCreateModal := true } [] 0).1.error =
      some "Please enter a valid game name" :=
  ((createNewGame_emptySlug _ [] 0 (by decide)).2.2
    (by decide) (by decide)).1 (by decide)

end GameGrove
